import Mathlib

/-!
Verification of the build-configuration logic of a static-site blog
(the repository's .eleventy.js): the readTime filter, the formatDate
filter, the tagList collection aggregator and the asset_img shortcode are
embedded shallowly as Lean functions, and the specified properties are
proved against them.
-/

namespace Eleventy

/-! ### Read-time filter

JavaScript source:
`const textOnly = content.replace(/(<([^>]+)>)/gi, "");`
`return Math.max(1, Math.floor(textOnly.length / readingSpeedPerMin));`
with `readingSpeedPerMin = 450`.
-/

/-- Split a character list at the first occurrence of the character greater-than:
returns the characters strictly before it and the characters strictly after it,
or none when it does not occur.  This is the search a regex engine performs
for the greedy part of the pattern after an opening angle bracket. -/
def splitAtGt : List Char → Option (List Char × List Char)
  | [] => none
  | c :: rest =>
    if c = '>' then some ([], rest)
    else
      match splitAtGt rest with
      | none => none
      | some (pre, post) => some (c :: pre, post)

theorem splitAtGt_length :
    ∀ (l pre post : List Char), splitAtGt l = some (pre, post) →
      post.length < l.length := by
  intro l
  induction l with
  | nil => intro pre post h; simp [splitAtGt] at h
  | cons c rest ih =>
    intro pre post h
    rw [splitAtGt] at h
    by_cases hc : c = '>'
    · rw [if_pos hc] at h
      simp only [Option.some.injEq, Prod.mk.injEq] at h
      obtain ⟨h1, h2⟩ := h
      subst h2
      simp only [List.length_cons]
      omega
    · rw [if_neg hc] at h
      rcases hrec : splitAtGt rest with _ | ⟨p1, p2⟩
      · rw [hrec] at h
        simp at h
      · rw [hrec] at h
        simp only [Option.some.injEq, Prod.mk.injEq] at h
        obtain ⟨h1, h2⟩ := h
        subst h2
        have hlt := ih p1 p2 hrec
        simp only [List.length_cons]
        omega

/-- Global replacement of the tag pattern by the empty string, with the
left-to-right scanning semantics of a global regex replace: at an opening
angle bracket the greedy match extends to the first following closing angle
bracket and succeeds when at least one character lies strictly between
them; on a match the whole bracketed span is dropped and scanning resumes
after the closing bracket; otherwise scanning moves one character right. -/
def stripTags : List Char → List Char
  | [] => []
  | c :: rest =>
    if c = '<' then
      match h : splitAtGt rest with
      | some (pre, post) =>
        if pre = [] then c :: stripTags rest
        else stripTags post
      | none => c :: stripTags rest
    else c :: stripTags rest
termination_by l => l.length
decreasing_by
  · simp only [List.length_cons]; omega
  · have := splitAtGt_length rest pre post h
    simp only [List.length_cons]
    omega
  · simp only [List.length_cons]; omega
  · simp only [List.length_cons]; omega

/-- The readTime filter: strip tags, divide the remaining character count
by the reading-speed constant 450, floor, and clamp to a minimum of 1. -/
def readTime (value : String) : Nat :=
  max 1 ((stripTags value.data).length / 450)

/-! ### Tag aggregator

JavaScript source: iterate over all items, skip an item when
`!item.data.tags`, filter out the reserved tags "posts" and "all",
insert the rest into a Set (insertion order, first occurrence kept),
return `Array.from(tagsSet).sort()`.
-/

/-- A content item as the aggregator sees it: only the front-matter tag
list matters; none stands for an absent tags field. -/
structure Item where
  tags : Option (List String)

/-- The reserved tag names excluded from the aggregated collection. -/
def reservedTags : List String := ["posts", "all"]

/-- The predicate of the filter step
`tags.filter((tag) => !["posts", "all"].includes(tag))`. -/
def keepTag (t : String) : Bool := !(reservedTags.contains t)

/-- Set insertion as observed through Array.from in insertion order:
append the tag unless it is already present. -/
def addTag (acc : List String) (t : String) : List String :=
  if t ∈ acc then acc else acc ++ [t]

/-- Process a single item of the collection: skip it when it has no tags,
otherwise add each of its non-reserved tags to the accumulated set. -/
def collectItem (acc : List String) (item : Item) : List String :=
  match item.tags with
  | none => acc
  | some ts => (ts.filter keepTag).foldl addTag acc

/-- The contents of the tag set after the forEach loop, in insertion
order. -/
def collectTags (items : List Item) : List String :=
  items.foldl collectItem []

/-- Lexicographic comparison of character lists by code point, the order
the default Array sort comparator induces on strings (identical to the
UTF-16 code-unit order on strings of basic-plane characters). -/
def charListLe : List Char → List Char → Bool
  | [], _ => true
  | _ :: _, [] => false
  | a :: as, b :: bs =>
    if a < b then true
    else if b < a then false
    else charListLe as bs

/-- The default JavaScript string sort order, as a relation on strings. -/
def jsStrLe (a b : String) : Prop := charListLe a.data b.data = true

instance : DecidableRel jsStrLe := fun _ _ => instDecidableEqBool _ _

/-- The tagList collection: the collected tag set, sorted ascending
(`Array.from(tagsSet).sort()`). -/
def tagList (items : List Item) : List String :=
  List.insertionSort jsStrLe (collectTags items)

theorem charListLe_total :
    ∀ (u v : List Char), charListLe u v = true ∨ charListLe v u = true := by
  intro u
  induction u with
  | nil => intro v; left; rfl
  | cons a as ih =>
    intro v
    cases v with
    | nil => right; rfl
    | cons b bs =>
      by_cases hab : a < b
      · left; simp [charListLe, if_pos hab]
      · by_cases hba : b < a
        · right; simp [charListLe, if_pos hba]
        · have heq : a = b := le_antisymm (le_of_not_lt hba) (le_of_not_lt hab)
          subst heq
          rcases ih bs with h | h
          · left; simp [charListLe, if_neg hab, h]
          · right; simp [charListLe, if_neg hab, h]

theorem charListLe_trans :
    ∀ {u v w : List Char}, charListLe u v = true → charListLe v w = true →
      charListLe u w = true := by
  intro u
  induction u with
  | nil => intro v w _ _; rfl
  | cons a as ih =>
    intro v w huv hvw
    cases v with
    | nil => simp [charListLe] at huv
    | cons b bs =>
      cases w with
      | nil => simp [charListLe] at hvw
      | cons c cs =>
        simp only [charListLe] at huv hvw ⊢
        by_cases hab : a < b
        · by_cases hbc : b < c
          · simp [if_pos (lt_trans hab hbc)]
          · by_cases hcb : c < b
            · simp [if_neg hbc, if_pos hcb] at hvw
            · have heq : b = c := le_antisymm (le_of_not_lt hcb) (le_of_not_lt hbc)
              subst heq
              simp [if_pos hab]
        · by_cases hba : b < a
          · simp [if_neg hab, if_pos hba] at huv
          · have heq : a = b := le_antisymm (le_of_not_lt hba) (le_of_not_lt hab)
            subst heq
            simp only [if_neg hab, lt_irrefl, if_neg (lt_irrefl a)] at huv
            by_cases hac : a < c
            · simp [if_pos hac]
            · by_cases hca : c < a
              · simp [if_neg hac, if_pos hca] at hvw
              · have heq2 : a = c := le_antisymm (le_of_not_lt hca) (le_of_not_lt hac)
                subst heq2
                simp only [if_neg hac, lt_irrefl, if_neg (lt_irrefl a)] at hvw ⊢
                exact ih huv hvw

theorem charListLe_antisymm :
    ∀ {u v : List Char}, charListLe u v = true → charListLe v u = true →
      u = v := by
  intro u
  induction u with
  | nil =>
    intro v huv hvu
    cases v with
    | nil => rfl
    | cons b bs => simp [charListLe] at hvu
  | cons a as ih =>
    intro v huv hvu
    cases v with
    | nil => simp [charListLe] at huv
    | cons b bs =>
      simp only [charListLe] at huv hvu
      by_cases hab : a < b
      · rw [if_neg (lt_asymm hab), if_pos hab] at hvu
        exact absurd hvu (by simp)
      · by_cases hba : b < a
        · rw [if_neg hab, if_pos hba] at huv
          exact absurd huv (by simp)
        · have heq : a = b := le_antisymm (le_of_not_lt hba) (le_of_not_lt hab)
          subst heq
          rw [if_neg hab, if_neg hab] at huv hvu
          rw [ih huv hvu]

instance : IsTotal String jsStrLe :=
  ⟨fun a b => charListLe_total a.data b.data⟩

instance : IsTrans String jsStrLe :=
  ⟨fun _ _ _ h1 h2 => charListLe_trans h1 h2⟩

instance : IsAntisymm String jsStrLe :=
  ⟨fun a b h1 h2 => by
    cases a; cases b
    exact congrArg String.mk (charListLe_antisymm h1 h2)⟩

theorem mem_addTag {acc : List String} {t a : String} :
    a ∈ addTag acc t ↔ a ∈ acc ∨ a = t := by
  unfold addTag
  by_cases h : t ∈ acc
  · simp only [if_pos h]
    constructor
    · exact Or.inl
    · rintro (ha | rfl)
      · exact ha
      · exact h
  · simp [if_neg h]

theorem nodup_addTag {acc : List String} {t : String} (h : acc.Nodup) :
    (addTag acc t).Nodup := by
  unfold addTag
  by_cases ht : t ∈ acc
  · simpa [if_pos ht]
  · rw [if_neg ht, List.nodup_append]
    exact ⟨h, List.nodup_singleton t,
      fun a ha hb => ht ((List.mem_singleton.mp hb) ▸ ha)⟩

theorem mem_foldl_addTag :
    ∀ (ts acc : List String) (a : String),
      a ∈ ts.foldl addTag acc ↔ a ∈ acc ∨ a ∈ ts := by
  intro ts
  induction ts with
  | nil => simp
  | cons t ts ih =>
    intro acc a
    simp only [List.foldl_cons, ih, mem_addTag, List.mem_cons]
    tauto

theorem nodup_foldl_addTag :
    ∀ (ts acc : List String), acc.Nodup → (ts.foldl addTag acc).Nodup := by
  intro ts
  induction ts with
  | nil => intro acc h; simpa
  | cons t ts ih =>
    intro acc h
    exact ih _ (nodup_addTag h)

theorem mem_collectItem {acc : List String} {i : Item} {a : String} :
    a ∈ collectItem acc i ↔
      a ∈ acc ∨ ∃ ts, i.tags = some ts ∧ a ∈ ts ∧ keepTag a = true := by
  unfold collectItem
  cases hi : i.tags with
  | none => simp
  | some ts =>
    simp [mem_foldl_addTag, List.mem_filter]

theorem nodup_collectItem {acc : List String} {i : Item} (h : acc.Nodup) :
    (collectItem acc i).Nodup := by
  unfold collectItem
  cases i.tags with
  | none => exact h
  | some ts => exact nodup_foldl_addTag _ _ h

theorem mem_foldl_collectItem :
    ∀ (items : List Item) (acc : List String) (a : String),
      a ∈ items.foldl collectItem acc ↔
        a ∈ acc ∨ ∃ i ∈ items, ∃ ts, i.tags = some ts ∧ a ∈ ts ∧ keepTag a = true := by
  intro items
  induction items with
  | nil => simp
  | cons i items ih =>
    intro acc a
    simp only [List.foldl_cons, ih, mem_collectItem, List.mem_cons]
    constructor
    · rintro ((ha | ⟨ts, hts, hmem, hk⟩) | ⟨j, hj, hex⟩)
      · exact Or.inl ha
      · exact Or.inr ⟨i, Or.inl rfl, ts, hts, hmem, hk⟩
      · exact Or.inr ⟨j, Or.inr hj, hex⟩
    · rintro (ha | ⟨j, (rfl | hj), hex⟩)
      · exact Or.inl (Or.inl ha)
      · exact Or.inl (Or.inr hex)
      · exact Or.inr ⟨j, hj, hex⟩

theorem mem_collectTags {items : List Item} {a : String} :
    a ∈ collectTags items ↔
      ∃ i ∈ items, ∃ ts, i.tags = some ts ∧ a ∈ ts ∧ keepTag a = true := by
  unfold collectTags
  rw [mem_foldl_collectItem]
  simp

theorem nodup_collectTags (items : List Item) : (collectTags items).Nodup := by
  unfold collectTags
  have key : ∀ (l : List Item) (acc : List String), acc.Nodup →
      (l.foldl collectItem acc).Nodup := by
    intro l
    induction l with
    | nil => intro acc h; simpa
    | cons i l ih => intro acc h; exact ih _ (nodup_collectItem h)
  exact key items [] List.nodup_nil

theorem tagList_perm_collectTags (items : List Item) :
    List.Perm (tagList items) (collectTags items) :=
  List.perm_insertionSort _ _

/-! ### Date formatter

JavaScript source: `new Date(value)` followed by
`date.toLocaleDateString("en-US", ...)` with numeric year, long month and
numeric day.  The date facility itself is the host runtime's, not code of
this repository; it is modelled below from the spec's description of the
formatter, following the ECMAScript rules it refers to: a date-only string
is interpreted as midnight UTC, formatting happens in the host's local
time zone, an unparseable value yields the "Invalid Date" placeholder.
-/

/-- Modelled from the spec: the en-US long month names used by the
formatter's localized output. -/
def monthName : Nat → String
  | 1 => "January"
  | 2 => "February"
  | 3 => "March"
  | 4 => "April"
  | 5 => "May"
  | 6 => "June"
  | 7 => "July"
  | 8 => "August"
  | 9 => "September"
  | 10 => "October"
  | 11 => "November"
  | 12 => "December"
  | _ => ""

/-- Gregorian leap-year rule. -/
def isLeap (y : Nat) : Bool :=
  y % 4 == 0 && (y % 100 != 0 || y % 400 == 0)

/-- Number of days in a month of a given year. -/
def daysInMonth (y : Nat) : Nat → Nat
  | 1 => 31
  | 2 => if isLeap y then 29 else 28
  | 3 => 31
  | 4 => 30
  | 5 => 31
  | 6 => 30
  | 7 => 31
  | 8 => 31
  | 9 => 30
  | 10 => 31
  | 11 => 30
  | 12 => 31
  | _ => 0

/-- Numeric value of a decimal digit character, none for other
characters. -/
def digitVal (c : Char) : Option Nat :=
  if '0' ≤ c ∧ c ≤ '9' then some (c.toNat - 48) else none

/-- Modelled from the spec: the date-parsing step of the underlying date
facility (the ECMAScript Date constructor), restricted to the date-only
four-digit-year format YYYY-MM-DD that the repository's front matter uses;
such a string denotes midnight UTC of the civil date, and out-of-range
month or day components make the string unparseable. -/
def parseDate (s : String) : Option (Nat × Nat × Nat) :=
  match s.data with
  | [y1, y2, y3, y4, s1, m1, m2, s2, d1, d2] =>
    match digitVal y1, digitVal y2, digitVal y3, digitVal y4,
        digitVal m1, digitVal m2, digitVal d1, digitVal d2 with
    | some a, some b, some c, some d, some e, some f, some g, some h =>
      if s1 = '-' ∧ s2 = '-' then
        let y := ((a * 10 + b) * 10 + c) * 10 + d
        let m := e * 10 + f
        let day := g * 10 + h
        if 1 ≤ m ∧ m ≤ 12 ∧ 1 ≤ day ∧ day ≤ daysInMonth y m then
          some (y, m, day)
        else none
      else none
    | _, _, _, _, _, _, _, _ => none
  | _ => none

/-- Days since the Unix epoch of the proleptic-Gregorian civil date, by
the standard days-from-civil calendar algorithm. -/
def daysFromCivil (y : Int) (m d : Nat) : Int :=
  let yAdj : Int := if m ≤ 2 then y - 1 else y
  let era : Int := Int.ediv yAdj 400
  let yoe : Int := yAdj - era * 400
  let mp : Int := if m ≤ 2 then (m : Int) + 9 else (m : Int) - 3
  let doy : Int := Int.ediv (153 * mp + 2) 5 + (d : Int) - 1
  let doe : Int := yoe * 365 + Int.ediv yoe 4 - Int.ediv yoe 100 + doy
  era * 146097 + doe - 719468

/-- Civil date of a day count since the Unix epoch, by the standard
civil-from-days calendar algorithm. -/
def civilFromDays (z : Int) : Int × Nat × Nat :=
  let zAdj := z + 719468
  let era := Int.ediv zAdj 146097
  let doe := zAdj - era * 146097
  let yoe := Int.ediv
    (doe - Int.ediv doe 1460 + Int.ediv doe 36524 - Int.ediv doe 146096) 365
  let y := yoe + era * 400
  let doy := doe - (365 * yoe + Int.ediv yoe 4 - Int.ediv yoe 100)
  let mp := Int.ediv (5 * doy + 2) 153
  let d := doy - Int.ediv (153 * mp + 2) 5 + 1
  let m := if mp < 10 then mp + 3 else mp - 9
  (if m ≤ 2 then y + 1 else y, m.toNat, d.toNat)

/-- Modelled from the spec: the formatting step of toLocaleDateString for
en-US with numeric year, long month and numeric day, at a host time-zone
offset of tz minutes east of UTC.  The UTC day number is shifted into
local time and its local civil date printed as month name, day, year. -/
def renderLocalDate (tz : Int) (utcDay : Int) : String :=
  let localDay := Int.ediv (utcDay * 1440 + tz) 1440
  let ymd := civilFromDays localDay
  monthName ymd.2.1 ++ " " ++ toString ymd.2.2 ++ ", " ++ toString ymd.1

/-- The formatDate filter: construct a date from the value and render it
as an en-US long date, the "Invalid Date" placeholder standing in for an
unparseable value.  The host time-zone offset is the explicit parameter
tz, in minutes east of UTC. -/
def formatDate (tz : Int) (value : String) : String :=
  match parseDate value with
  | none => "Invalid Date"
  | some (y, m, d) => renderLocalDate tz (daysFromCivil (Int.ofNat y) m d)

/-! ### Asset image shortcode

JavaScript source: a liquid shortcode returning the template literal
interpolating the filename inside the src attribute and the alt text
inside the alt attribute of an img element.
-/

/-- The asset_img shortcode: plain string concatenation of the two
arguments into an img element, with no escaping or validation. -/
def asset_img (filename alt : String) : String :=
  "<img src=\"/assets/img/posts/" ++ filename ++ "\" alt=\"" ++ alt ++ "\" />"

/-! ### Claims -/

/-- C1: for every input string, readTime returns the maximum of 1 and the
floor of N divided by 450, where N is the length of the input after
removing every substring matched by the naive tag-stripping pattern (an
opening angle bracket, one or more characters other than a closing angle
bracket, then a closing angle bracket); the result is always at least 1. -/
theorem readTime_spec (value : String) :
    readTime value = max 1 ((stripTags value.data).length / 450) ∧
      1 ≤ readTime value :=
  ⟨rfl, le_max_left _ _⟩

/-- C5: the read time of the empty string is 1. -/
theorem readTime_empty : readTime "" = 1 := by
  simp [readTime, stripTags]

/-- C2: for every list of content items, the aggregated tag list contains
neither "posts" nor "all". -/
theorem tagList_excludes_reserved (items : List Item) :
    "posts" ∉ tagList items ∧ "all" ∉ tagList items := by
  constructor <;>
  · intro hmem
    have h := (tagList_perm_collectTags items).mem_iff.mp hmem
    rw [mem_collectTags] at h
    obtain ⟨i, _, ts, _, _, hk⟩ := h
    simp [keepTag, reservedTags] at hk

/-- C3: for every list of content items, the aggregated tag list is sorted
in ascending lexicographic order and contains no duplicate entries. -/
theorem tagList_sorted_nodup (items : List Item) :
    (tagList items).Sorted jsStrLe ∧ (tagList items).Nodup := by
  constructor
  · exact List.sorted_insertionSort _ _
  · exact (tagList_perm_collectTags items).nodup_iff.mpr (nodup_collectTags items)

/-- C6: on the three items with tag lists ["a","posts"], ["b","all"] and
["a","c"], the aggregator returns exactly ["a","b","c"]. -/
theorem tagList_example :
    tagList [⟨some ["a", "posts"]⟩, ⟨some ["b", "all"]⟩, ⟨some ["a", "c"]⟩] =
      ["a", "b", "c"] := by
  decide

/-- C8: items without a tags field contribute nothing: the aggregator's
output on any list of items equals its output on the sublist of items that
do carry tags. -/
theorem tagList_skips_untagged (items : List Item) :
    tagList items = tagList (items.filter fun i => i.tags.isSome) := by
  have key : ∀ (l : List Item) (acc : List String),
      l.foldl collectItem acc =
        (l.filter fun i => i.tags.isSome).foldl collectItem acc := by
    intro l
    induction l with
    | nil => intro acc; rfl
    | cons i l ih =>
      intro acc
      cases hi : i.tags with
      | none =>
        have hstep : collectItem acc i = acc := by
          unfold collectItem
          rw [hi]
        simp [List.filter_cons, hi, hstep, ih]
      | some ts =>
        simp [List.filter_cons, hi, ih]
  unfold tagList collectTags
  rw [key]

/-- C9: the aggregator's output is invariant under permutation of the
input list of items. -/
theorem tagList_perm_invariant (l1 l2 : List Item) (h : List.Perm l1 l2) :
    tagList l1 = tagList l2 := by
  have h1 : List.Perm (collectTags l1) (collectTags l2) := by
    rw [List.perm_ext_iff_of_nodup (nodup_collectTags l1) (nodup_collectTags l2)]
    intro a
    rw [mem_collectTags, mem_collectTags]
    constructor
    · rintro ⟨i, hi, rest⟩
      exact ⟨i, h.mem_iff.mp hi, rest⟩
    · rintro ⟨i, hi, rest⟩
      exact ⟨i, h.mem_iff.mpr hi, rest⟩
  have hp : List.Perm (tagList l1) (tagList l2) :=
    ((tagList_perm_collectTags l1).trans h1).trans
      (tagList_perm_collectTags l2).symm
  exact List.eq_of_perm_of_sorted hp
    (List.sorted_insertionSort _ _) (List.sorted_insertionSort _ _)

/-- Witness for C9: a concrete two-item list and its reversal aggregate to
the same tag list. -/
theorem tagList_perm_invariant_witness :
    List.Perm [Item.mk (some ["x"]), Item.mk none]
        [Item.mk none, Item.mk (some ["x"])] ∧
      tagList [Item.mk (some ["x"]), Item.mk none] =
        tagList [Item.mk none, Item.mk (some ["x"])] :=
  ⟨List.Perm.swap _ _ _, tagList_perm_invariant _ _ (List.Perm.swap _ _ _)⟩

/-- C10: the asset_img shortcode interpolates its two arguments verbatim
into the fixed img markup, both as string concatenation and character by
character. -/
theorem asset_img_verbatim (filename alt : String) :
    asset_img filename alt =
      "<img src=\"/assets/img/posts/" ++ filename ++ "\" alt=\"" ++ alt ++ "\" />" ∧
    (asset_img filename alt).data =
      ("<img src=\"/assets/img/posts/").data ++ filename.data ++
        ("\" alt=\"").data ++ alt.data ++ ("\" />").data := by
  refine ⟨rfl, ?_⟩
  simp [asset_img]

/-- C4: formatDate on the string 2021-04-16 returns the string
April 16, 2021, at any host time-zone offset in [0, 24h) east of UTC (the
parsed instant is midnight UTC of that day, so a nonnegative offset keeps
the local civil date unchanged). -/
theorem formatDate_example (tz : Int) (h0 : 0 ≤ tz) (h1 : tz < 1440) :
    formatDate tz ("2021-04-16") = "April 16, 2021" := by
  have hstep : formatDate tz ("2021-04-16") =
      renderLocalDate tz (daysFromCivil (Int.ofNat 2021) 4 16) := rfl
  rw [hstep]
  have hdays : daysFromCivil (Int.ofNat 2021) 4 16 = 18733 := rfl
  unfold renderLocalDate
  rw [hdays]
  have hld : Int.ediv (18733 * 1440 + tz) 1440 = 18733 := by
    rw [show (18733 * 1440 + tz : Int) = tz + 18733 * 1440 by ring]
    rw [show Int.ediv (tz + 18733 * 1440) 1440 = (tz + 18733 * 1440) / 1440 from rfl]
    rw [Int.add_mul_ediv_right tz 18733 (by norm_num : (1440 : Int) ≠ 0)]
    rw [Int.ediv_eq_zero_of_lt h0 h1]
    norm_num
  rw [hld]
  rfl

/-- Witness for C4: the theorem applied at offset zero. -/
theorem formatDate_example_witness :
    (0 : Int) ≤ 0 ∧ (0 : Int) < 1440 ∧
      formatDate 0 ("2021-04-16") = "April 16, 2021" :=
  ⟨le_refl 0, by decide, formatDate_example 0 (le_refl 0) (by decide)⟩

/-- C7: formatDate is total and never signals an error: an unparseable
value yields the "Invalid Date" placeholder string, and a parseable value
yields the rendered local date string. -/
theorem formatDate_total (tz : Int) (value : String) :
    (parseDate value = none → formatDate tz value = "Invalid Date") ∧
      (∀ y m d, parseDate value = some (y, m, d) →
        formatDate tz value = renderLocalDate tz (daysFromCivil (Int.ofNat y) m d)) := by
  constructor
  · intro h
    simp [formatDate, h]
  · intro y m d h
    simp [formatDate, h]

/-- Witness for C7: both branches of the theorem at concrete inputs, an
unparseable value and a parseable one. -/
theorem formatDate_total_witness :
    (parseDate "not a date" = none ∧
        formatDate 0 "not a date" = "Invalid Date") ∧
      (parseDate "2021-04-16" = some (2021, 4, 16) ∧
        formatDate 0 "2021-04-16" =
          renderLocalDate 0 (daysFromCivil (Int.ofNat 2021) 4 16)) :=
  ⟨⟨rfl, (formatDate_total 0 "not a date").1 rfl⟩,
    ⟨rfl, (formatDate_total 0 "2021-04-16").2 2021 4 16 rfl⟩⟩

end Eleventy
